/-
Verification development for the VideOCR subtitle-extraction pipeline.

Shallow embedding of the core data model and algorithms:
  * `videocr/models.py`  — `PredictedText`, `PredictedFrames` (line grouping,
    confidence sentinel), `PredictedSubtitle` (creation, `finalize_text`)
  * `videocr/utils.py`   — `is_on_same_line`, `convert_visual_to_logical`
  * `videocr/video.py`   — end-index stitching, `_process_single_zone`
    (pass 1 merge, duration filter, pass 3 re-merge), `_is_gap_mergeable`,
    `_merge_dual_zone_subtitles`
  * `videocr/pyav_adapter.py` — frame-count reconciliation in
    `get_video_properties`

Python floats (confidences, timestamps, fps, thresholds) are modelled as `ℚ`;
frame indices as `ℕ`/`ℤ`.  The external fuzzy string-similarity primitive
(`thefuzz.fuzz.partial_ratio`, declared a library collaborator by the spec,
contract: values in 0..100, higher = more similar) is a function parameter
`simFn`, and the external word-resegmentation model is a function parameter
`post_process`.  Python's stable `list.sort` is modelled by
`List.insertionSort`, which is likewise stable.
-/
import Mathlib

/-! ### Geometry and raw detections -/

/-- Minimum of two rationals, written out so it evaluates by kernel
reduction. -/
def qmin (a b : ℚ) : ℚ := if a ≤ b then a else b

/-- Maximum of two rationals, written out so it evaluates by kernel
reduction. -/
def qmax (a b : ℚ) : ℚ := if a ≤ b then b else a

/-- A bounding quadrilateral: the four points of an OCR detection box, each an
`(x, y)` pair.  Mirrors the 4-point `bounding_box` lists emitted by the
engine. -/
structure Quad where
  p0 : ℚ × ℚ
  p1 : ℚ × ℚ
  p2 : ℚ × ℚ
  p3 : ℚ × ℚ
deriving DecidableEq

/-- Python `min(p[1] for p in bounding_box)`. -/
def Quad.minY (q : Quad) : ℚ := qmin (qmin q.p0.2 q.p1.2) (qmin q.p2.2 q.p3.2)

/-- Python `max(p[1] for p in bounding_box)`. -/
def Quad.maxY (q : Quad) : ℚ := qmax (qmax q.p0.2 q.p1.2) (qmax q.p2.2 q.p3.2)

/-- Python `min(p[0] for p in bounding_box)`. -/
def Quad.minX (q : Quad) : ℚ := qmin (qmin q.p0.1 q.p1.1) (qmin q.p2.1 q.p3.1)

/-- One recognized text fragment (`models.PredictedText`): bounding box,
confidence, text. -/
structure PredictedText where
  bounding_box : Quad
  confidence : ℚ
  text : String
deriving DecidableEq

/-- Model of `utils.is_on_same_line`: two words share a line iff the vertical midpoint
of either one's box falls strictly inside the other's vertical span. -/
def is_on_same_line (w1 w2 : PredictedText) : Bool :=
  let y_min1 := w1.bounding_box.minY
  let y_max1 := w1.bounding_box.maxY
  let y_min2 := w2.bounding_box.minY
  let y_max2 := w2.bounding_box.maxY
  let midpoint1 := (y_min1 + y_max1) / 2
  let midpoint2 := (y_min2 + y_max2) / 2
  decide ((y_min1 < midpoint2 ∧ midpoint2 < y_max1) ∨
          (y_min2 < midpoint1 ∧ midpoint1 < y_max2))

/-! ### Line grouping (`PredictedFrames.__init__`)

A line under construction is `(seed, rest)`: the Python code appends words to
the end of the line list, so the element the greedy test compares against
(`line[0]`) is always the first word placed in the line — the seed. -/

/-- Greedy first-fit placement of one word: the word joins the first existing
line whose seed word shares its line, else opens a new line at the end. -/
def placeWord (w : PredictedText) :
    List (PredictedText × List PredictedText) →
    List (PredictedText × List PredictedText)
  | [] => [(w, [])]
  | (s, ws) :: rest =>
    if is_on_same_line w s then (s, ws ++ [w]) :: rest
    else (s, ws) :: placeWord w rest

/-- The greedy first-fit grouping loop over all kept words, in detection
order. -/
def groupWords (words : List PredictedText) :
    List (PredictedText × List PredictedText) :=
  words.foldl (fun lines w => placeWord w lines) []

/-- Key relation of the Python line sort:
`lines_of_words.sort(key=lambda line: min(p[1] for p in line[0].bounding_box))`
— i.e. by the minimum y of the line's FIRST (seed) word only. -/
def line_seed_le (g1 g2 : PredictedText × List PredictedText) : Prop :=
  g1.1.bounding_box.minY ≤ g2.1.bounding_box.minY

instance : DecidableRel line_seed_le :=
  fun g1 g2 => inferInstanceAs (Decidable (g1.1.bounding_box.minY ≤ g2.1.bounding_box.minY))

instance : IsTotal (PredictedText × List PredictedText) line_seed_le :=
  ⟨fun _ _ => le_total _ _⟩

instance : IsTrans (PredictedText × List PredictedText) line_seed_le :=
  ⟨fun _ _ _ h1 h2 => le_trans h1 h2⟩

/-- Key relation of the Python within-line word sort:
`line.sort(key=lambda word: word.bounding_box[0][0])` — i.e. by the
x-coordinate of the FIRST VERTEX of the quadrilateral, not the minimum x. -/
def word_x_le (w1 w2 : PredictedText) : Prop :=
  w1.bounding_box.p0.1 ≤ w2.bounding_box.p0.1

instance : DecidableRel word_x_le :=
  fun w1 w2 => inferInstanceAs (Decidable (w1.bounding_box.p0.1 ≤ w2.bounding_box.p0.1))

instance : IsTotal PredictedText word_x_le := ⟨fun _ _ => le_total _ _⟩

instance : IsTrans PredictedText word_x_le := ⟨fun _ _ _ h1 h2 => le_trans h1 h2⟩

/-- The grouped lines after the line-level sort (by seed-word minimum y) and
before the within-line word sort. -/
def sortedGroups (words : List PredictedText) :
    List (PredictedText × List PredictedText) :=
  List.insertionSort line_seed_le (groupWords words)

/-- The final `lines` value: seed-sorted lines, each flattened and sorted by
the first-vertex x of every word. -/
def buildLines (words : List PredictedText) : List (List PredictedText) :=
  (sortedGroups words).map (fun g => List.insertionSort word_x_le (g.1 :: g.2))

/-- Mean word confidence of the grouped lines (Python
`total_conf / word_count if word_count > 0 else 0`). -/
def linesConfidence (lines : List (List PredictedText)) : ℚ :=
  let word_count := (lines.map List.length).sum
  let total_conf := (lines.map (fun line => (line.map (fun w => w.confidence)).sum)).sum
  if word_count = 0 then 0 else total_conf / word_count

/-- Frame text: words joined by spaces, lines joined by newlines. -/
def linesText (lines : List (List PredictedText)) : String :=
  String.intercalate "\n" (lines.map (fun line =>
    String.intercalate " " (line.map (fun w => w.text))))

/-- The aggregated per-image prediction (`models.PredictedFrames`): one
sampled `(frame, zone)` pair with its stitched index range. -/
structure PredictedFrames where
  start_index : ℕ
  end_index : ℕ
  zone_index : ℕ
  lines : List (List PredictedText)
  confidence : ℚ
  text : String
deriving DecidableEq

/-- Model of `PredictedFrames.__init__`.  `pred0` is `pred_data[0]`: the raw
detections the engine produced for the image (`video.run_ocr` passes
`[ocr_result] if ocr_result else [[]]`, whose first element equals the raw
list in both cases).  Words below the confidence floor are discarded; if none
survive, confidence is the sentinel: 100 when the engine returned an
empty-but-valid result, 0 when raw detections existed but none passed. -/
def PredictedFrames.build (index : ℕ) (pred0 : List PredictedText)
    (conf_threshold : ℚ) (zone_index : ℕ) : PredictedFrames :=
  let all_words := pred0.filter (fun w => decide (conf_threshold ≤ w.confidence))
  if all_words.isEmpty then
    { start_index := index, end_index := index, zone_index := zone_index,
      lines := [], confidence := if pred0.isEmpty then 100 else 0, text := "" }
  else
    let ls := buildLines all_words
    { start_index := index, end_index := index, zone_index := zone_index,
      lines := ls, confidence := linesConfidence ls, text := linesText ls }

/-! ### Python `max(iterable, key=...)` -/

/-- Python `max` with a key function over a nonempty collection `x :: xs`:
keeps the current best and replaces it only on a STRICTLY greater key, hence
returns the first element attaining the maximum. -/
def pyMax {α : Type} {β : Type} [LinearOrder β] (key : α → β) (x : α) (xs : List α) : α :=
  xs.foldl (fun best a => if key best < key a then a else best) x

/-! ### Subtitles (`models.PredictedSubtitle`) -/

/-- Sort relation for frames: `key=lambda frame: frame.start_index`. -/
def frame_start_le (f g : PredictedFrames) : Prop := f.start_index ≤ g.start_index

instance : DecidableRel frame_start_le :=
  fun f g => inferInstanceAs (Decidable (f.start_index ≤ g.start_index))

instance : IsTotal PredictedFrames frame_start_le := ⟨fun _ _ => Nat.le_total _ _⟩

instance : IsTrans PredictedFrames frame_start_le := ⟨fun _ _ _ h1 h2 => Nat.le_trans h1 h2⟩

/-- A merged subtitle candidate (`models.PredictedSubtitle`).  The per-run
similarity threshold, language and language model live in the run
configuration rather than being copied into every subtitle. -/
structure PredictedSubtitle where
  frames : List PredictedFrames
  zone_index : ℕ
  text : String
deriving DecidableEq

/-- Model of `PredictedSubtitle.__init__`: keep only frames with confidence
strictly above 0, sort them by `start_index`, and take as text the text of
the highest-confidence frame (Python `max(self.frames, key=...)`, first
maximum), or `''` when no frame survives. -/
def mkPredictedSubtitle (frames : List PredictedFrames) (zone_index : ℕ) :
    PredictedSubtitle :=
  let fs := List.insertionSort frame_start_le
    (frames.filter (fun f => decide (0 < f.confidence)))
  { frames := fs
    zone_index := zone_index
    text := match fs with
            | [] => ""
            | f :: rest => (pyMax (fun g => g.confidence) f rest).text }

/-- The `index_start` property: the first frame's `start_index`, or the default 0
when there are no frames. -/
def PredictedSubtitle.index_start (s : PredictedSubtitle) : ℕ :=
  match s.frames with
  | [] => 0
  | f :: _ => f.start_index

/-- The `index_end` property: the last frame's `end_index`, or the default 0 when
there are no frames. -/
def PredictedSubtitle.index_end (s : PredictedSubtitle) : ℕ :=
  ((s.frames.getLast?).map (fun f => f.end_index)).getD 0

/-- Sort relation for subtitles: `key=lambda s: s.index_start`. -/
def sub_start_le (a b : PredictedSubtitle) : Prop := a.index_start ≤ b.index_start

instance : DecidableRel sub_start_le :=
  fun a b => inferInstanceAs (Decidable (a.index_start ≤ b.index_start))

instance : IsTotal PredictedSubtitle sub_start_le := ⟨fun _ _ => Nat.le_total _ _⟩

instance : IsTrans PredictedSubtitle sub_start_le := ⟨fun _ _ _ h1 h2 => Nat.le_trans h1 h2⟩

/-- A merge step of the walks in `_process_single_zone`:
`last_sub.frames.extend(new_sub.frames)` followed by the stable
`last_sub.frames.sort(key=lambda f: f.start_index)`.  The text is NOT
updated here. -/
def extendSub (a b : PredictedSubtitle) : PredictedSubtitle :=
  { a with frames := List.insertionSort frame_start_le (a.frames ++ b.frames) }

/-! ### Text finalization (`PredictedSubtitle.finalize_text`) -/

/-- Distinct frame texts in first-occurrence order — the key order of the
Python `Counter` (insertion-ordered dict). -/
def distinct_texts (fs : List PredictedFrames) : List String :=
  fs.foldl (fun acc f => if f.text ∈ acc then acc else acc ++ [f.text]) []

/-- Occurrence count of one text value among the subtitle's frames. -/
def text_count (fs : List PredictedFrames) (t : String) : ℕ :=
  (fs.filter (fun f => f.text == t)).length

/-- Confidences of the frames that produced one text value. -/
def text_confs (fs : List PredictedFrames) (t : String) : List ℚ :=
  (fs.filter (fun f => f.text == t)).map (fun f => f.confidence)

/-- Mean confidence of the frames that produced one text value
(`sum(...) / len(...)`). -/
def mean_conf (fs : List PredictedFrames) (t : String) : ℚ :=
  (text_confs fs t).sum / ((text_confs fs t).length : ℚ)

/-- The candidate-selection core of `finalize_text`: the most frequent frame
text, ties broken by the highest mean confidence (Python `max` with key,
first maximum).  `none` models the `ValueError` that Python's
`max(text_counts.values())` raises on a subtitle with no frames. -/
def finalizeChoice (fs : List PredictedFrames) : Option String :=
  match distinct_texts fs with
  | [] => none
  | t0 :: ts =>
    let max_count := ts.foldl (fun m t => max m (text_count fs t)) (text_count fs t0)
    let candidates := (t0 :: ts).filter (fun t => text_count fs t == max_count)
    match candidates with
    | [] => none
    | c :: cs => some (if cs.isEmpty then c else pyMax (mean_conf fs) c cs)

/-! ### Run configuration and the merge tests (`video.Video`) -/

/-- The per-run state `_process_single_zone` and friends read from `self` and
their arguments.  `simFn` stands for the external
`thefuzz.fuzz.partial_ratio` primitive (spec contract: 0..100), and
`post_process` for the optional external word-resegmentation rewriting of a
finalized text (identity when post-processing is disabled or the language has
no model). -/
structure RunCfg where
  is_vfr : Bool
  fps : ℚ
  start_time_offset_ms : ℚ
  frame_timestamps : List (ℕ × ℚ)
  max_merge_gap_sec : ℚ
  sim_threshold : ℕ
  simFn : String → String → ℕ
  min_subtitle_duration_sec : ℚ
  post_process : String → String

/-- Dictionary lookup `self.frame_timestamps.get(k)`. -/
def tsGet (cfg : RunCfg) (k : ℕ) : Option ℚ := cfg.frame_timestamps.lookup k

/-- Model of `Video._get_subtitle_ms_times`: VFR start/end milliseconds with
the first-frame correction delta. -/
def subtitle_ms_times (cfg : RunCfg) (s : PredictedSubtitle) : ℚ × ℚ :=
  let first_frame_ms := (tsGet cfg 0).getD 0
  let correction_delta := first_frame_ms - cfg.start_time_offset_ms
  let start_time_ms := (tsGet cfg s.index_start).getD 0
  let end_time_ms :=
    match tsGet cfg (s.index_end + 1) with
    | some v => v
    | none => (tsGet cfg s.index_end).getD 0 + 1000 / cfg.fps
  (start_time_ms - correction_delta, end_time_ms - correction_delta)

/-- Python `int(...)` on a rational: truncation toward zero. -/
def pyInt (q : ℚ) : ℤ := q.num.tdiv q.den

/-- The CFR frame-unit merge cap computed by `_is_gap_mergeable`:
`int(max_merge_gap_sec * self.fps) + 1`. -/
def max_frame_merge_diff (cfg : RunCfg) : ℤ :=
  pyInt (cfg.max_merge_gap_sec * cfg.fps) + 1

/-- Model of `Video._is_gap_mergeable`: millisecond-gap test for VFR, frame
gap test for CFR. -/
def is_gap_mergeable (cfg : RunCfg) (last_sub next_sub : PredictedSubtitle) : Bool :=
  if cfg.is_vfr then
    let last_end_ms := (subtitle_ms_times cfg last_sub).2
    let next_start_ms := (subtitle_ms_times cfg next_sub).1
    decide (next_start_ms - last_end_ms ≤ cfg.max_merge_gap_sec * 1000)
  else
    decide ((next_sub.index_start : ℤ) - (last_sub.index_end : ℤ) ≤ max_frame_merge_diff cfg)

/-- Python `text.replace(' ', '')`. -/
def stripSpaces (s : String) : String :=
  String.mk (s.toList.filter (fun c => !(c == ' ')))

/-- Model of `PredictedSubtitle.is_similar_to`: fuzzy similarity of the
space-stripped texts against the run's threshold. -/
def is_similar_to (cfg : RunCfg) (a b : PredictedSubtitle) : Bool :=
  decide (cfg.sim_threshold ≤ cfg.simFn (stripSpaces a.text) (stripSpaces b.text))

/-- The combined merge condition used by pass 1 and the pass-3 re-merge:
`self._is_gap_mergeable(last, new) and last.is_similar_to(new)`. -/
def mergeTest (cfg : RunCfg) (a b : PredictedSubtitle) : Bool :=
  is_gap_mergeable cfg a b && is_similar_to cfg a b

/-- Model of `Video._get_subtitle_duration_sec`. -/
def subtitle_duration_sec (cfg : RunCfg) (s : PredictedSubtitle) : ℚ :=
  if cfg.is_vfr then
    ((subtitle_ms_times cfg s).2 - (subtitle_ms_times cfg s).1) / 1000
  else
    ((s.index_end : ℚ) + 1 - (s.index_start : ℚ)) / cfg.fps

/-! ### The single-zone pipeline (`Video._process_single_zone`) -/

/-- The pass-1 walk once a first open subtitle exists.  Each frame with
non-empty text becomes a one-frame subtitle; it is merged into the open
(last) subtitle when the gap and similarity tests both pass, and opens a new
entry otherwise.  Pass 1 does NOT re-finalize text on merge, so the open
subtitle keeps the text it was created with. -/
def pass1go (cfg : RunCfg) (last : PredictedSubtitle) :
    List PredictedFrames → List PredictedSubtitle
  | [] => [last]
  | f :: fs =>
    if (mkPredictedSubtitle [f] f.zone_index).text = "" then pass1go cfg last fs
    else if mergeTest cfg last (mkPredictedSubtitle [f] f.zone_index) then
      pass1go cfg (extendSub last (mkPredictedSubtitle [f] f.zone_index)) fs
    else last :: pass1go cfg (mkPredictedSubtitle [f] f.zone_index) fs

/-- Pass 1 (initial merge): skip frames whose subtitle text is empty until the
first open subtitle exists, then walk. -/
def pass1 (cfg : RunCfg) : List PredictedFrames → List PredictedSubtitle
  | [] => []
  | f :: fs =>
    if (mkPredictedSubtitle [f] f.zone_index).text = "" then pass1 cfg fs
    else pass1go cfg (mkPredictedSubtitle [f] f.zone_index) fs

/-- Model of `sub.finalize_text(post_processing)`: select the representative text and
apply the (externally modelled) post-processing rewrite.  `none` models the
exception Python would raise on a subtitle with no frames. -/
def finalizeSubtitle (cfg : RunCfg) (s : PredictedSubtitle) : Option PredictedSubtitle :=
  (finalizeChoice s.frames).map (fun t => { s with text := cfg.post_process t })

/-- Effectful map over a list in the `Option` monad, by direct structural
recursion. -/
def optionMapM {α β : Type} (f : α → Option β) : List α → Option (List β)
  | [] => some []
  | a :: as => (f a).bind (fun b => (optionMapM f as).map (fun bs => b :: bs))

/-- Pass 3 (re-merge) walk over the duration-filtered list: a merge extends
the accumulated subtitle and immediately re-finalizes its text; otherwise the
current subtitle is appended and becomes the accumulator. -/
def remergeGo (cfg : RunCfg) (last : PredictedSubtitle) :
    List PredictedSubtitle → Option (List PredictedSubtitle)
  | [] => some [last]
  | n :: rest =>
    if mergeTest cfg last n then
      (finalizeSubtitle cfg (extendSub last n)).bind (fun m => remergeGo cfg m rest)
    else (remergeGo cfg n rest).map (fun r => last :: r)

/-- Model of `Video._process_single_zone`: sort the zone's frames, pass 1,
finalize every subtitle, drop the ones shorter than the minimum duration,
then re-merge the survivors. -/
def process_single_zone (cfg : RunCfg) (pred_frames : List PredictedFrames) :
    Option (List PredictedSubtitle) :=
  if pred_frames.isEmpty then some [] else
    (optionMapM (finalizeSubtitle cfg)
        (pass1 cfg (List.insertionSort frame_start_le pred_frames))).bind
      (fun subsF =>
        match subsF.filter
            (fun s => decide (cfg.min_subtitle_duration_sec ≤ subtitle_duration_sec cfg s)) with
        | [] => some []
        | s :: rest => remergeGo cfg s rest)

/-- Re-running the pass-1 gap-plus-similarity walk over an already-produced
subtitle list, treating each subtitle's finalized text and overall frame span
as the merge inputs (the property the spec calls merge idempotence). -/
def rerunGo (cfg : RunCfg) (last : PredictedSubtitle) :
    List PredictedSubtitle → List PredictedSubtitle
  | [] => [last]
  | n :: rest =>
    if mergeTest cfg last n then rerunGo cfg (extendSub last n) rest
    else last :: rerunGo cfg n rest

/-- The re-run walk over a whole subtitle list. -/
def rerunPass1 (cfg : RunCfg) : List PredictedSubtitle → List PredictedSubtitle
  | [] => []
  | s :: rest => rerunGo cfg s rest

/-! ### Cross-zone merge (`Video._merge_dual_zone_subtitles`)

`zones` maps a zone index to that validated zone's `midpoint_y`
(`zone['y'] + zone['height'] / 2`). -/

/-- The dual-zone accumulation walk: a temporally overlapping subtitle is
folded into the accumulated one, stacking the text of the zone with the
smaller vertical midpoint on top; otherwise it starts a new entry. -/
def mergeDualGo (zones : ℕ → ℚ) (last : PredictedSubtitle) :
    List PredictedSubtitle → List PredictedSubtitle
  | [] => [last]
  | cur :: rest =>
    if cur.index_start ≤ last.index_end then
      let newText :=
        if zones cur.zone_index < zones last.zone_index
        then cur.text ++ "\n" ++ last.text
        else last.text ++ "\n" ++ cur.text
      mergeDualGo zones
        { last with
          text := newText
          frames := List.insertionSort frame_start_le (last.frames ++ cur.frames) }
        rest
    else last :: mergeDualGo zones cur rest

/-- Model of `Video._merge_dual_zone_subtitles`: concatenate both zones'
surviving subtitles, stable-sort by `index_start`, then walk. -/
def merge_dual_zone_subtitles (zones : ℕ → ℚ)
    (subs1 subs2 : List PredictedSubtitle) : List PredictedSubtitle :=
  match List.insertionSort sub_start_le (subs1 ++ subs2) with
  | [] => []
  | s :: rest => mergeDualGo zones s rest

/-! ### End-index stitching (`Video.run_ocr`, per-zone loop) -/

/-- The per-zone stitching pass: frames are already sorted by `start_index`;
every frame's `end_index` becomes one less than the next frame's
`start_index`, and the last frame's becomes `ocr_end - 1`. -/
def stitchZone (ocr_end : ℕ) : List PredictedFrames → List PredictedFrames
  | [] => []
  | [f] => [{ f with end_index := ocr_end - 1 }]
  | f :: g :: rest =>
    { f with end_index := g.start_index - 1 } :: stitchZone ocr_end (g :: rest)

/-- The frame-index interval `[start_index, end_index]` covered by a stitched
frame, as an explicit list. -/
def rangeOf (f : PredictedFrames) : List ℕ :=
  List.range' f.start_index (f.end_index + 1 - f.start_index)

/-! ### Frame-count reconciliation (`pyav_adapter.get_video_properties`) -/

/-- Resolution of the video frame count: the container-reported
(`MediaInfo`) count `initial_num_frames` is replaced by the stream-reported
`stream.frames` only when the former is non-positive and the latter is
positive (`if not num_frames or num_frames <= 0: if stream.frames > 0: ...`). -/
def resolve_num_frames (initial_num_frames stream_frames : ℤ) : ℤ :=
  if initial_num_frames ≤ 0 then
    (if 0 < stream_frames then stream_frames else initial_num_frames)
  else initial_num_frames

/-! ### Right-to-left correction (`utils.convert_visual_to_logical`) -/

/-- Membership in the character class of the `ARABIC_CHARS` regex. -/
def isArabicChar (c : Char) : Bool :=
  (0x600 ≤ c.toNat && c.toNat ≤ 0x6FF) || (0x750 ≤ c.toNat && c.toNat ≤ 0x77F) ||
  (0x8A0 ≤ c.toNat && c.toNat ≤ 0x8FF) || (0xFB50 ≤ c.toNat && c.toNat ≤ 0xFDFF) ||
  (0xFE70 ≤ c.toNat && c.toNat ≤ 0xFEFF)

/-- Membership in the character class of the `ARABIC_TRAILING_PUNCT` regex:
Arabic comma, question and semicolon marks plus `! , . : ? ( )`, the
apostrophe and the double quote. -/
def isTrailingPunct (c : Char) : Bool :=
  [0x60C, 0x61F, 0x61B, 33, 44, 46, 58, 63, 40, 41, 39, 34].contains c.toNat

/-- A token is treated as right-to-left script when any of its characters is
in the Arabic class (`ARABIC_CHARS.search(w)`). -/
def isArabicWord (w : String) : Bool := w.toList.any isArabicChar

/-- Per-token correction: strip the maximal trailing-punctuation suffix,
reverse the remaining core, reattach the suffix.  On the reversed character
list the suffix is the maximal punctuation PREFIX, so the result is
`dropWhile punct (rev w) ++ reverse (takeWhile punct (rev w))`. -/
def fixArabicWord (w : String) : String :=
  let rev := w.toList.reverse
  String.mk (rev.dropWhile isTrailingPunct ++ (rev.takeWhile isTrailingPunct).reverse)

/-- The token-level loop of `convert_visual_to_logical`: right-to-left tokens
are corrected and buffered; on reaching a left-to-right token (or the end of
the sentence) the buffered run is flushed in reversed token order. -/
def goVisual : List String → List String → List String
  | buf, [] => buf.reverse
  | buf, w :: ws =>
    if isArabicWord w then goVisual (buf ++ [fixArabicWord w]) ws
    else buf.reverse ++ w :: goVisual [] ws

/-- Python `str.split()`: split on whitespace runs, dropping empty pieces. -/
def pySplit (s : String) : List String :=
  (s.split (fun c => c.isWhitespace)).filter (fun t => !(t == ""))

/-- Model of `utils.convert_visual_to_logical`. -/
def convert_visual_to_logical (text : String) : String :=
  String.intercalate " " (goVisual [] (pySplit text))

/-- Modelled from the spec: the intended token reordering — each maximal run
of consecutive right-to-left tokens is reversed in token order (with the
per-token correction applied), while left-to-right tokens stay in place.
Written from the spec's words as the reference for the refinement proof of
the loop above. -/
def specReorder : List String → List String
  | [] => []
  | w :: ws =>
    if isArabicWord w then
      ((w :: ws.takeWhile isArabicWord).map fixArabicWord).reverse ++
        specReorder (ws.dropWhile isArabicWord)
    else w :: specReorder ws
termination_by l => l.length
decreasing_by
  · simp only [List.length_cons]
    exact Nat.lt_succ_of_le (List.dropWhile_sublist _).length_le
  · simp

/-! ### Safety predicate for C10 -/

/-- A subtitle that owns at least one genuine frame: positive confidence and
non-empty text.  Such a subtitle has non-empty `frames`, so `finalize_text`
and the `index_start`/`index_end` properties act on real data. -/
def GoodSub (s : PredictedSubtitle) : Prop :=
  ∃ f ∈ s.frames, 0 < f.confidence ∧ f.text ≠ ""

/-! ### Concrete instances used by counterexamples and witnesses -/

/-- A similarity function satisfying the spec's library contract (values in
0..100): `"U"~"V"`, `"V"~"W"` and `"A"~"W"` score 80, equal strings 100,
everything else 0. -/
def simCE (a b : String) : ℕ :=
  if a = b then 100
  else if (a = "U" ∧ b = "V") ∨ (a = "V" ∧ b = "U") then 80
  else if (a = "V" ∧ b = "W") ∨ (a = "W" ∧ b = "V") then 80
  else if (a = "A" ∧ b = "W") ∨ (a = "W" ∧ b = "A") then 80
  else 0

/-- A one-index zone-0 frame literal with the given text and confidence. -/
def mkF (i : ℕ) (t : String) (c : ℚ) : PredictedFrames :=
  { start_index := i, end_index := i, zone_index := 0, lines := [],
    confidence := c, text := t }

/-- CFR run configuration for the merge-idempotence counterexample: 10 fps,
1 s maximum merge gap, similarity threshold 70, no duration filter, no
post-processing. -/
def cfgCE : RunCfg :=
  { is_vfr := false, fps := 10, start_time_offset_ms := 0, frame_timestamps := [],
    max_merge_gap_sec := 1, sim_threshold := 70, simFn := simCE,
    min_subtitle_duration_sec := 0, post_process := id }

/-- Frame sequence for the merge-idempotence counterexample. -/
def framesCE : List PredictedFrames :=
  [mkF 0 "A" 90, mkF 1 "U" 90, mkF 2 "V" 95, mkF 3 "W" 90, mkF 4 "W" 90]

/-- Quadrilateral literal from eight coordinates. -/
def mkQ (x0 y0 x1 y1 x2 y2 x3 y3 : ℚ) : Quad :=
  ⟨(x0, y0), (x1, y1), (x2, y2), (x3, y3)⟩

/-- Word whose FIRST vertex has x = 5 but whose minimum x is 0. -/
def wx1 : PredictedText := ⟨mkQ 5 0 0 0 5 10 0 10, 9, "wx1"⟩

/-- Word whose first vertex and minimum x are both 1; same line as `wx1`. -/
def wx2 : PredictedText := ⟨mkQ 1 0 6 0 6 10 1 10, 9, "wx2"⟩

/-- Seed word of the first greedy line: vertical span [4, 14]. -/
def vy1 : PredictedText := ⟨mkQ 0 4 10 4 10 14 0 14, 9, "vy1"⟩

/-- Detection forming its own line: vertical span [1, 3]. -/
def vy3 : PredictedText := ⟨mkQ 0 1 10 1 10 3 0 3, 9, "vy3"⟩

/-- Joins the first line (its midpoint 8 lies in (4, 14)) but has minimum
y 0, dragging that line's true minimum y below the other line's. -/
def vy2 : PredictedText := ⟨mkQ 20 0 30 0 30 16 20 16, 9, "vy2"⟩

/-- CFR configuration for the gap-boundary witness: `int(0.55 * 10) + 1 = 6`
frames. -/
def cfgCFR : RunCfg :=
  { is_vfr := false, fps := 10, start_time_offset_ms := 0, frame_timestamps := [],
    max_merge_gap_sec := 55/100, sim_threshold := 70, simFn := simCE,
    min_subtitle_duration_sec := 0, post_process := id }

/-- VFR configuration whose timestamp map makes the subtitle gap exactly
2000 ms (the configured 2 s maximum). -/
def cfgVFR1 : RunCfg :=
  { is_vfr := true, fps := 10, start_time_offset_ms := 0,
    frame_timestamps := [(0, 0), (1, 1000), (2, 3000), (3, 3500)],
    max_merge_gap_sec := 2, sim_threshold := 70, simFn := simCE,
    min_subtitle_duration_sec := 0, post_process := id }

/-- VFR configuration whose timestamp map makes the subtitle gap 2001 ms, one
millisecond above the configured 2 s maximum. -/
def cfgVFR2 : RunCfg :=
  { is_vfr := true, fps := 10, start_time_offset_ms := 0,
    frame_timestamps := [(0, 0), (1, 1000), (2, 3001)],
    max_merge_gap_sec := 2, sim_threshold := 70, simFn := simCE,
    min_subtitle_duration_sec := 0, post_process := id }

/-- One-frame subtitle literal over frame range [i, j] with the given text. -/
def mkSub1 (i j : ℕ) (t : String) : PredictedSubtitle :=
  { frames := [{ start_index := i, end_index := j, zone_index := 0, lines := [],
                 confidence := 90, text := t }],
    zone_index := 0, text := t }

/-- Subtitle from zone 0 spanning frames [0, 10] for the cross-zone witness. -/
def subZ0 : PredictedSubtitle :=
  { frames := [{ start_index := 0, end_index := 10, zone_index := 0, lines := [],
                 confidence := 90, text := "top" }],
    zone_index := 0, text := "top" }

/-- Subtitle from zone 1 spanning frames [5, 8] for the cross-zone witness. -/
def subZ1 : PredictedSubtitle :=
  { frames := [{ start_index := 5, end_index := 8, zone_index := 1, lines := [],
                 confidence := 90, text := "bottom" }],
    zone_index := 1, text := "bottom" }

/-- Midpoint map for the cross-zone witness: zone 0 at y = 100, zone 1 at
y = 300. -/
def zonesW (i : ℕ) : ℚ := if i = 0 then 100 else 300

/-- A line's true minimum y-coordinate: the minimum over ALL its words'
boxes (the quantity the spec's line-ordering sentence speaks about, as
opposed to the seed-word key the code actually sorts by). -/
def lineMinY : List PredictedText → ℚ
  | [] => 0
  | w :: ws => ws.foldl (fun m v => qmin m v.bounding_box.minY) w.bounding_box.minY

/-! ## Theorems -/

/-! ### C9 — frame-count reconciliation -/

/-- C9 counterexample: with a positive container-reported count of 100 and a
positive stream-reported count of 50, the code resolves to 100, not to the
minimum 50 — the container count is never reconciled against the stream
count when it is already positive. -/
theorem C9_counterexample :
    resolve_num_frames 100 50 = 100 ∧ resolve_num_frames 100 50 ≠ min 100 50 := by
  refine ⟨by decide, ?_⟩
  have hmin : (min 100 50 : ℤ) = 50 := by decide
  rw [hmin]
  decide

/-- C9 (amended): the resolved frame count is the container-reported count
whenever that is positive; the stream-reported count is consulted only when
the container count is non-positive, and then only if itself positive,
otherwise the (non-positive) container value is kept. -/
theorem C9_amended_resolution (c s : ℤ) :
    (0 < c → resolve_num_frames c s = c) ∧
    (c ≤ 0 → 0 < s → resolve_num_frames c s = s) ∧
    (c ≤ 0 → s ≤ 0 → resolve_num_frames c s = c) := by
  unfold resolve_num_frames
  refine ⟨fun h => ?_, fun h1 h2 => ?_, fun h1 h2 => ?_⟩
  · rw [if_neg (by omega)]
  · rw [if_pos h1, if_pos h2]
  · rw [if_pos h1, if_neg (by omega)]

/-- Witness for C9: the amended resolution evaluated at concrete counts. -/
theorem C9_amended_resolution_witness :
    resolve_num_frames 7 3 = 7 ∧ resolve_num_frames 0 3 = 3 ∧
    resolve_num_frames (-2) 0 = -2 :=
  ⟨(C9_amended_resolution 7 3).1 (by norm_num),
   (C9_amended_resolution 0 3).2.1 le_rfl (by norm_num),
   (C9_amended_resolution (-2) 0).2.2 (by norm_num) le_rfl⟩

/-! ### C7 — confidence sentinel for empty frames -/

/-- C7: for an image whose raw detections all fall below the confidence floor
(vacuously including an image with no raw detections), the built frame has
empty text, and its confidence is 100 exactly when the engine returned no raw
detections at all, and 0 when raw detections existed but none passed. -/
theorem C7_confidence_sentinel (idx zone : ℕ) (pred0 : List PredictedText)
    (floor : ℚ) (h : ∀ d ∈ pred0, d.confidence < floor) :
    (PredictedFrames.build idx pred0 floor zone).text = "" ∧
    (PredictedFrames.build idx pred0 floor zone).confidence
      = (if pred0 = [] then (100 : ℚ) else 0) ∧
    ((PredictedFrames.build idx pred0 floor zone).confidence = 100 ↔ pred0 = []) := by
  have hf : pred0.filter (fun w => decide (floor ≤ w.confidence)) = [] := by
    rw [List.filter_eq_nil_iff]
    intro a ha
    simpa using not_le.mpr (h a ha)
  have hb : PredictedFrames.build idx pred0 floor zone =
      { start_index := idx, end_index := idx, zone_index := zone,
        lines := [], confidence := if pred0.isEmpty then 100 else 0, text := "" } := by
    unfold PredictedFrames.build
    rw [hf]
    simp
  rw [hb]
  refine ⟨rfl, ?_, ?_⟩
  · by_cases hp : pred0 = [] <;> simp [hp]
  · by_cases hp : pred0 = [] <;> simp [hp]

/-- Witness for C7: a single under-floor detection yields confidence 0 and an
empty raw list yields confidence 100. -/
theorem C7_confidence_sentinel_witness :
    ((PredictedFrames.build 0 [wx1] 10 0).confidence
        = (if ([wx1] : List PredictedText) = [] then (100 : ℚ) else 0)) ∧
    ((PredictedFrames.build 7 ([] : List PredictedText) 10 0).confidence = 100
        ↔ ([] : List PredictedText) = []) :=
  ⟨(C7_confidence_sentinel 0 0 [wx1] 10 (by decide)).2.1,
   (C7_confidence_sentinel 7 0 [] 10 (by simp)).2.2⟩

/-! ### C2 — gap-threshold boundary -/

/-- C2: for two subtitles with identical text (so the similarity conjunct of
the merge test holds under the library contract `simFn s s = 100` with a
threshold of at most 100), the merge test succeeds when the gap between the
first subtitle's end and the second's start exactly equals the configured
maximum — `max_frame_merge_diff` frames for CFR, `max_merge_gap_sec * 1000`
milliseconds for VFR — and fails when the gap is one unit greater. -/
theorem C2_gap_boundary (cfg : RunCfg) (a b : PredictedSubtitle)
    (hsim : ∀ s, cfg.simFn s s = 100) (hthr : cfg.sim_threshold ≤ 100)
    (htext : a.text = b.text) :
    (cfg.is_vfr = false →
      ((b.index_start : ℤ) - (a.index_end : ℤ) = max_frame_merge_diff cfg →
        mergeTest cfg a b = true)) ∧
    (cfg.is_vfr = false →
      ((b.index_start : ℤ) - (a.index_end : ℤ) = max_frame_merge_diff cfg + 1 →
        mergeTest cfg a b = false)) ∧
    (cfg.is_vfr = true →
      ((subtitle_ms_times cfg b).1 - (subtitle_ms_times cfg a).2
          = cfg.max_merge_gap_sec * 1000 → mergeTest cfg a b = true)) ∧
    (cfg.is_vfr = true →
      ((subtitle_ms_times cfg b).1 - (subtitle_ms_times cfg a).2
          = cfg.max_merge_gap_sec * 1000 + 1 → mergeTest cfg a b = false)) := by
  have hsimilar : is_similar_to cfg a b = true := by
    unfold is_similar_to
    rw [htext, hsim]
    exact decide_eq_true hthr
  refine ⟨fun hv hgap => ?_, fun hv hgap => ?_, fun hv hgap => ?_, fun hv hgap => ?_⟩
  · unfold mergeTest is_gap_mergeable
    rw [hv]
    have hle : (b.index_start : ℤ) - (a.index_end : ℤ) ≤ max_frame_merge_diff cfg :=
      le_of_eq hgap
    simp [hsimilar, hle]
  · unfold mergeTest is_gap_mergeable
    rw [hv]
    have hng : ¬ ((b.index_start : ℤ) - (a.index_end : ℤ) ≤ max_frame_merge_diff cfg) := by
      omega
    simp [hng]
  · unfold mergeTest is_gap_mergeable
    rw [hv]
    have hle : (subtitle_ms_times cfg b).1 - (subtitle_ms_times cfg a).2
        ≤ cfg.max_merge_gap_sec * 1000 := le_of_eq hgap
    simp [hsimilar, hle]
  · unfold mergeTest is_gap_mergeable
    rw [hv]
    have hng : ¬ ((subtitle_ms_times cfg b).1 - (subtitle_ms_times cfg a).2
        ≤ cfg.max_merge_gap_sec * 1000) := by
      rw [hgap]
      intro h
      linarith
    simp [hng]

unseal Rat.add Rat.mul Rat.inv Rat.sub in
/-- Witness for C2: concrete CFR gaps of 6 and 7 frames against a cap of
`int(0.55 * 10) + 1 = 6`, and concrete VFR gaps of exactly 2000 ms and
2001 ms against a 2 s maximum. -/
theorem C2_gap_boundary_witness :
    mergeTest cfgCFR (mkSub1 0 0 "A") (mkSub1 6 6 "A") = true ∧
    mergeTest cfgCFR (mkSub1 0 0 "A") (mkSub1 7 7 "A") = false ∧
    mergeTest cfgVFR1 (mkSub1 0 0 "A") (mkSub1 2 3 "A") = true ∧
    mergeTest cfgVFR2 (mkSub1 0 0 "A") (mkSub1 2 2 "A") = false :=
  ⟨(C2_gap_boundary cfgCFR (mkSub1 0 0 "A") (mkSub1 6 6 "A")
      (fun s => by simp [cfgCFR, simCE]) (by decide) rfl).1 rfl (by decide),
   (C2_gap_boundary cfgCFR (mkSub1 0 0 "A") (mkSub1 7 7 "A")
      (fun s => by simp [cfgCFR, simCE]) (by decide) rfl).2.1 rfl (by decide),
   (C2_gap_boundary cfgVFR1 (mkSub1 0 0 "A") (mkSub1 2 3 "A")
      (fun s => by simp [cfgVFR1, simCE]) (by decide) rfl).2.2.1 rfl (by decide),
   (C2_gap_boundary cfgVFR2 (mkSub1 0 0 "A") (mkSub1 2 2 "A")
      (fun s => by simp [cfgVFR2, simCE]) (by decide) rfl).2.2.2 rfl (by decide)⟩

/-! ### C1 — cross-zone vertical ordering -/

/-- C1: when two subtitles from the two zones overlap in time, the cross-zone
merge emits the text of the zone with the numerically smaller vertical
midpoint first, a newline, then the other zone's text — for both scan
orders. -/
theorem C1_cross_zone_order (zones : ℕ → ℚ) (A B : PredictedSubtitle)
    (hAB : A.index_start ≤ B.index_end) (hBA : B.index_start ≤ A.index_end)
    (hy : zones A.zone_index < zones B.zone_index) :
    (merge_dual_zone_subtitles zones [A] [B]).map PredictedSubtitle.text
      = [A.text ++ "\n" ++ B.text] ∧
    (merge_dual_zone_subtitles zones [B] [A]).map PredictedSubtitle.text
      = [A.text ++ "\n" ++ B.text] := by
  have hgoAB : (mergeDualGo zones A [B]).map PredictedSubtitle.text
      = [A.text ++ "\n" ++ B.text] := by
    unfold mergeDualGo
    rw [if_pos hBA, if_neg (not_lt.mpr (le_of_lt hy))]
    simp [mergeDualGo]
  have hgoBA : (mergeDualGo zones B [A]).map PredictedSubtitle.text
      = [A.text ++ "\n" ++ B.text] := by
    unfold mergeDualGo
    rw [if_pos hAB, if_pos hy]
    simp [mergeDualGo]
  constructor
  · unfold merge_dual_zone_subtitles
    simp only [List.cons_append, List.nil_append, List.insertionSort, List.orderedInsert]
    by_cases h : sub_start_le A B
    · rw [if_pos h]
      exact hgoAB
    · rw [if_neg h]
      exact hgoBA
  · unfold merge_dual_zone_subtitles
    simp only [List.cons_append, List.nil_append, List.insertionSort, List.orderedInsert]
    by_cases h : sub_start_le B A
    · rw [if_pos h]
      exact hgoBA
    · rw [if_neg h]
      exact hgoAB

/-- Witness for C1: zone 0 at midpoint 100 above zone 1 at midpoint 300, with
overlapping frame ranges [0, 10] and [5, 8]; both input orders produce the
top text first. -/
theorem C1_cross_zone_order_witness :
    (merge_dual_zone_subtitles zonesW [subZ0] [subZ1]).map PredictedSubtitle.text
      = ["top" ++ "\n" ++ "bottom"] ∧
    (merge_dual_zone_subtitles zonesW [subZ1] [subZ0]).map PredictedSubtitle.text
      = ["top" ++ "\n" ++ "bottom"] :=
  C1_cross_zone_order zonesW subZ0 subZ1 (by decide) (by decide) (by decide)

/-! ### Helper lemmas about `pyMax` and `distinct_texts` -/

/-- The Python `max` result is one of the collection's elements. -/
theorem pyMax_mem {α β : Type} [LinearOrder β] (key : α → β) :
    ∀ (xs : List α) (x : α), pyMax key x xs ∈ x :: xs := by
  intro xs
  induction xs with
  | nil =>
    intro x
    simp [pyMax]
  | cons a as ih =>
    intro x
    have h1 : pyMax key x (a :: as) = pyMax key (if key x < key a then a else x) as := rfl
    rw [h1]
    rcases List.mem_cons.mp (ih (if key x < key a then a else x)) with h | h
    · rw [h]
      by_cases hk : key x < key a
      · simp [hk]
      · simp [hk]
    · exact List.mem_cons_of_mem _ (List.mem_cons_of_mem _ h)

/-- The Python `max` result has the greatest key in the collection. -/
theorem pyMax_le {α β : Type} [LinearOrder β] (key : α → β) :
    ∀ (xs : List α) (x y : α), y ∈ x :: xs → key y ≤ key (pyMax key x xs) := by
  intro xs
  induction xs with
  | nil =>
    intro x y hy
    rw [List.mem_singleton] at hy
    rw [hy]
    exact le_refl _
  | cons a as ih =>
    intro x y hy
    have h1 : pyMax key x (a :: as) = pyMax key (if key x < key a then a else x) as := rfl
    rw [h1]
    have hxle : key x ≤ key (if key x < key a then a else x) := by
      by_cases hk : key x < key a
      · rw [if_pos hk]
        exact le_of_lt hk
      · rw [if_neg hk]
    have hale : key a ≤ key (if key x < key a then a else x) := by
      by_cases hk : key x < key a
      · rw [if_pos hk]
      · rw [if_neg hk]
        exact le_of_not_lt hk
    have htop : key (if key x < key a then a else x)
        ≤ key (pyMax key (if key x < key a then a else x) as) :=
      ih _ _ (List.mem_cons_self _ _)
    rcases List.mem_cons.mp hy with rfl | hy'
    · exact le_trans hxle htop
    · rcases List.mem_cons.mp hy' with rfl | hy''
      · exact le_trans hale htop
      · exact ih _ y (List.mem_cons_of_mem _ hy'')

/-- The running-maximum fold of `finalize_text` computes the key of the
Python-`max` element. -/
theorem foldl_max_eq_pyMax {α : Type} (key : α → ℕ) :
    ∀ (ts : List α) (t0 : α),
      ts.foldl (fun m t => max m (key t)) (key t0) = key (pyMax key t0 ts) := by
  intro ts
  induction ts with
  | nil =>
    intro t0
    rfl
  | cons a as ih =>
    intro t0
    have h1 : (a :: as).foldl (fun m t => max m (key t)) (key t0)
        = as.foldl (fun m t => max m (key t)) (max (key t0) (key a)) := rfl
    have h2 : pyMax key t0 (a :: as) = pyMax key (if key t0 < key a then a else t0) as := rfl
    have h3 : max (key t0) (key a) = key (if key t0 < key a then a else t0) := by
      by_cases hk : key t0 < key a
      · rw [if_pos hk, Nat.max_eq_right (le_of_lt hk)]
      · rw [if_neg hk, Nat.max_eq_left (le_of_not_lt hk)]
    rw [h1, h2, h3, ih]

/-- Membership characterization of the `Counter`-key fold with an arbitrary
accumulator. -/
theorem mem_distinct_aux :
    ∀ (fs : List PredictedFrames) (acc : List String) (t : String),
      (t ∈ fs.foldl (fun acc f => if f.text ∈ acc then acc else acc ++ [f.text]) acc
        ↔ t ∈ acc ∨ ∃ f ∈ fs, f.text = t) := by
  intro fs
  induction fs with
  | nil =>
    intro acc t
    simp
  | cons g gs ih =>
    intro acc t
    simp only [List.foldl_cons]
    rw [ih]
    by_cases hg : g.text ∈ acc
    · rw [if_pos hg]
      constructor
      · rintro (h | ⟨f, hf, ht⟩)
        · exact Or.inl h
        · exact Or.inr ⟨f, List.mem_cons_of_mem _ hf, ht⟩
      · rintro (h | ⟨f, hf, ht⟩)
        · exact Or.inl h
        · rcases List.mem_cons.mp hf with rfl | hf'
          · exact Or.inl (ht ▸ hg)
          · exact Or.inr ⟨f, hf', ht⟩
    · rw [if_neg hg]
      constructor
      · rintro (h | ⟨f, hf, ht⟩)
        · rcases List.mem_append.mp h with h' | h'
          · exact Or.inl h'
          · rw [List.mem_singleton] at h'
            exact Or.inr ⟨g, List.mem_cons_self _ _, h'.symm⟩
        · exact Or.inr ⟨f, List.mem_cons_of_mem _ hf, ht⟩
      · rintro (h | ⟨f, hf, ht⟩)
        · exact Or.inl (List.mem_append_left _ h)
        · rcases List.mem_cons.mp hf with rfl | hf'
          · refine Or.inl (List.mem_append_right _ ?_)
            rw [List.mem_singleton]
            exact ht.symm
          · exact Or.inr ⟨f, hf', ht⟩

/-- A string is a distinct text of a frame list iff some frame carries it. -/
theorem mem_distinct_texts {fs : List PredictedFrames} {t : String} :
    t ∈ distinct_texts fs ↔ ∃ f ∈ fs, f.text = t := by
  unfold distinct_texts
  rw [mem_distinct_aux]
  simp

/-- Unfolding of `finalizeChoice` once the distinct-text list is known. -/
theorem finalizeChoice_cons_eq (fs : List PredictedFrames) (t0 : String)
    (ts : List String) (h : distinct_texts fs = t0 :: ts) :
    finalizeChoice fs =
      (match (t0 :: ts).filter (fun t => text_count fs t ==
          ts.foldl (fun m t => max m (text_count fs t)) (text_count fs t0)) with
      | [] => none
      | c :: cs => some (if cs.isEmpty then c else pyMax (mean_conf fs) c cs)) := by
  unfold finalizeChoice
  rw [h]

/-- Full specification of the `finalize_text` selection: on a non-empty frame
list it succeeds, the selected text is carried by some frame, it attains the
maximal occurrence count, and among all frame texts attaining that count it
has the greatest mean confidence. -/
theorem finalizeChoice_spec (fs : List PredictedFrames) (hfs : fs ≠ []) :
    ∃ t, finalizeChoice fs = some t ∧ (∃ f ∈ fs, f.text = t) ∧
      (∀ f ∈ fs, text_count fs f.text ≤ text_count fs t) ∧
      (∀ f ∈ fs, text_count fs f.text = text_count fs t →
        mean_conf fs f.text ≤ mean_conf fs t) := by
  obtain ⟨f0, fs', rfl⟩ : ∃ f0 fs', fs = f0 :: fs' := by
    cases fs with
    | nil => exact absurd rfl hfs
    | cons f0 fs' => exact ⟨f0, fs', rfl⟩
  cases hdt : distinct_texts (f0 :: fs') with
  | nil =>
    exfalso
    have : f0.text ∈ distinct_texts (f0 :: fs') :=
      mem_distinct_texts.mpr ⟨f0, List.mem_cons_self _ _, rfl⟩
    rw [hdt] at this
    exact absurd this (List.not_mem_nil _)
  | cons t0 ts =>
    set fs := f0 :: fs'
    set cnt := text_count fs with hcnt
    have hfold : ts.foldl (fun m t => max m (cnt t)) (cnt t0) = cnt (pyMax cnt t0 ts) :=
      foldl_max_eq_pyMax cnt ts t0
    set u := pyMax cnt t0 ts with hu
    have hu_mem : u ∈ t0 :: ts := pyMax_mem cnt ts t0
    have hu_max : ∀ v ∈ t0 :: ts, cnt v ≤ cnt u := fun v hv => pyMax_le cnt ts t0 v hv
    have hrw := finalizeChoice_cons_eq fs t0 ts hdt
    rw [hfold] at hrw
    have hu_cand : u ∈ (t0 :: ts).filter (fun t => cnt t == cnt u) := by
      apply List.mem_filter.mpr
      exact ⟨hu_mem, by simp⟩
    cases hfil : (t0 :: ts).filter (fun t => cnt t == cnt u) with
    | nil =>
      exfalso
      rw [hfil] at hu_cand
      exact absurd hu_cand (List.not_mem_nil _)
    | cons c cs =>
      rw [hfil] at hrw
      refine ⟨if cs.isEmpty then c else pyMax (mean_conf fs) c cs, hrw, ?_, ?_, ?_⟩
      all_goals
        have ht_cand : (if cs.isEmpty then c else pyMax (mean_conf fs) c cs) ∈ c :: cs := by
          by_cases hcs : cs.isEmpty
          · rw [if_pos hcs]
            exact List.mem_cons_self _ _
          · rw [if_neg hcs]
            exact pyMax_mem (mean_conf fs) cs c
        have ht_filter : (if cs.isEmpty then c else pyMax (mean_conf fs) c cs)
            ∈ (t0 :: ts).filter (fun t => cnt t == cnt u) := by
          rw [hfil]
          exact ht_cand
        have ht_mem : (if cs.isEmpty then c else pyMax (mean_conf fs) c cs) ∈ t0 :: ts :=
          List.mem_of_mem_filter ht_filter
        have ht_cnt : cnt (if cs.isEmpty then c else pyMax (mean_conf fs) c cs) = cnt u := by
          have := List.of_mem_filter ht_filter
          simpa using this
      · rw [← hdt] at ht_mem
        exact mem_distinct_texts.mp ht_mem
      · intro f hf
        have hft : f.text ∈ t0 :: ts := by
          rw [← hdt]
          exact mem_distinct_texts.mpr ⟨f, hf, rfl⟩
        rw [ht_cnt]
        exact hu_max _ hft
      · intro f hf hcount
        have hft : f.text ∈ t0 :: ts := by
          rw [← hdt]
          exact mem_distinct_texts.mpr ⟨f, hf, rfl⟩
        have hft_cand : f.text ∈ (t0 :: ts).filter (fun t => cnt t == cnt u) := by
          apply List.mem_filter.mpr
          refine ⟨hft, ?_⟩
          exact beq_iff_eq.mpr (hcount.trans ht_cnt)
        rw [hfil] at hft_cand
        by_cases hcs : cs.isEmpty
        · rw [if_pos hcs]
          have hcsnil : cs = [] := List.isEmpty_iff.mp hcs
          rw [hcsnil] at hft_cand
          rw [List.mem_singleton] at hft_cand
          rw [hft_cand]
        · rw [if_neg hcs]
          exact pyMax_le (mean_conf fs) cs c _ hft_cand

/-! ### C3 — frequency-first text finalization -/

/-- C3: for every subtitle with at least one frame, the finalize-text
selection returns the frame text with the highest occurrence count among the
subtitle's frames, and on a count tie the winner has the highest mean
confidence among the tied frame texts. -/
theorem C3_finalize_frequency_first (fs : List PredictedFrames) (hfs : fs ≠ []) :
    ∃ t, finalizeChoice fs = some t ∧ (∃ f ∈ fs, f.text = t) ∧
      (∀ f ∈ fs, text_count fs f.text ≤ text_count fs t) ∧
      (∀ f ∈ fs, text_count fs f.text = text_count fs t →
        mean_conf fs f.text ≤ mean_conf fs t) :=
  finalizeChoice_spec fs hfs

/-- Witness for C3: the selection evaluated on the concrete frame list with
texts `A, U, V, W, W`. -/
theorem C3_finalize_frequency_first_witness :
    ∃ t, finalizeChoice framesCE = some t ∧ (∃ f ∈ framesCE, f.text = t) ∧
      (∀ f ∈ framesCE, text_count framesCE f.text ≤ text_count framesCE t) ∧
      (∀ f ∈ framesCE, text_count framesCE f.text = text_count framesCE t →
        mean_conf framesCE f.text ≤ mean_conf framesCE t) :=
  C3_finalize_frequency_first framesCE (by simp [framesCE])

/-! ### Helper lemmas for the pipeline safety invariant (C10) -/

/-- The frames stored by `PredictedSubtitle.__init__`. -/
theorem mkPredictedSubtitle_frames (frames : List PredictedFrames) (z : ℕ) :
    (mkPredictedSubtitle frames z).frames
      = List.insertionSort frame_start_le
          (frames.filter (fun f => decide (0 < f.confidence))) := rfl

/-- The text stored by `PredictedSubtitle.__init__`, in terms of the stored
frames. -/
theorem mkPredictedSubtitle_text (frames : List PredictedFrames) (z : ℕ) :
    (mkPredictedSubtitle frames z).text
      = (match (mkPredictedSubtitle frames z).frames with
        | [] => ""
        | f :: rest => (pyMax (fun g => g.confidence) f rest).text) := rfl

/-- A freshly created subtitle with non-empty text is good: its text is the
text of one of its frames, all of which passed the positive-confidence
filter. -/
theorem mkPredictedSubtitle_good (frames : List PredictedFrames) (z : ℕ)
    (h : (mkPredictedSubtitle frames z).text ≠ "") :
    GoodSub (mkPredictedSubtitle frames z) := by
  cases hfs : (mkPredictedSubtitle frames z).frames with
  | nil =>
    exfalso
    apply h
    rw [mkPredictedSubtitle_text, hfs]
  | cons f rest =>
    refine ⟨pyMax (fun g => g.confidence) f rest, ?_, ?_, ?_⟩
    · rw [hfs]
      exact pyMax_mem _ rest f
    · have hmem : pyMax (fun g => g.confidence) f rest
          ∈ (mkPredictedSubtitle frames z).frames := by
        rw [hfs]
        exact pyMax_mem _ rest f
      rw [mkPredictedSubtitle_frames, List.mem_insertionSort] at hmem
      have := List.of_mem_filter hmem
      simpa using this
    · intro hempty
      apply h
      rw [mkPredictedSubtitle_text, hfs]
      exact hempty

/-- A merge step preserves goodness: the extended subtitle keeps all of the
accumulator's frames. -/
theorem extendSub_good (a b : PredictedSubtitle) (h : GoodSub a) :
    GoodSub (extendSub a b) := by
  obtain ⟨f, hf, hc, ht⟩ := h
  refine ⟨f, ?_, hc, ht⟩
  show f ∈ List.insertionSort frame_start_le (a.frames ++ b.frames)
  rw [List.mem_insertionSort]
  exact List.mem_append_left _ hf

/-- Every subtitle produced by the pass-1 walk from a good accumulator is
good. -/
theorem pass1go_good (cfg : RunCfg) :
    ∀ (fs : List PredictedFrames) (last : PredictedSubtitle), GoodSub last →
      ∀ s ∈ pass1go cfg last fs, GoodSub s := by
  intro fs
  induction fs with
  | nil =>
    intro last hl s hs
    rw [pass1go, List.mem_singleton] at hs
    rw [hs]
    exact hl
  | cons f fs' ih =>
    intro last hl s hs
    rw [pass1go] at hs
    by_cases hemp : (mkPredictedSubtitle [f] f.zone_index).text = ""
    · rw [if_pos hemp] at hs
      exact ih last hl s hs
    · rw [if_neg hemp] at hs
      by_cases hmt : mergeTest cfg last (mkPredictedSubtitle [f] f.zone_index) = true
      · rw [if_pos hmt] at hs
        exact ih _ (extendSub_good _ _ hl) s hs
      · rw [if_neg hmt] at hs
        rcases List.mem_cons.mp hs with rfl | hs'
        · exact hl
        · exact ih _ (mkPredictedSubtitle_good _ _ hemp) s hs'

/-- Every subtitle produced by pass 1 is good. -/
theorem pass1_good (cfg : RunCfg) :
    ∀ (fs : List PredictedFrames), ∀ s ∈ pass1 cfg fs, GoodSub s := by
  intro fs
  induction fs with
  | nil =>
    intro s hs
    rw [pass1] at hs
    exact absurd hs (List.not_mem_nil s)
  | cons f fs' ih =>
    intro s hs
    rw [pass1] at hs
    by_cases hemp : (mkPredictedSubtitle [f] f.zone_index).text = ""
    · rw [if_pos hemp] at hs
      exact ih s hs
    · rw [if_neg hemp] at hs
      exact pass1go_good cfg fs' _ (mkPredictedSubtitle_good _ _ hemp) s hs

/-- Finalization succeeds on a good subtitle and preserves its frames (hence
its goodness). -/
theorem finalizeSubtitle_good (cfg : RunCfg) (s : PredictedSubtitle)
    (h : GoodSub s) :
    ∃ s', finalizeSubtitle cfg s = some s' ∧ GoodSub s' := by
  have hne : s.frames ≠ [] := by
    obtain ⟨f, hf, _⟩ := h
    intro he
    rw [he] at hf
    exact absurd hf (List.not_mem_nil f)
  obtain ⟨t, ht, _⟩ := finalizeChoice_spec s.frames hne
  refine ⟨{ s with text := cfg.post_process t }, ?_, ?_⟩
  · unfold finalizeSubtitle
    rw [ht]
    rfl
  · obtain ⟨f, hf, hc, htx⟩ := h
    exact ⟨f, hf, hc, htx⟩

/-- Mapping finalization over a list of good subtitles succeeds and preserves
goodness. -/
theorem optionMapM_finalize_good (cfg : RunCfg) :
    ∀ (l : List PredictedSubtitle), (∀ s ∈ l, GoodSub s) →
      ∃ l', optionMapM (finalizeSubtitle cfg) l = some l' ∧ ∀ s ∈ l', GoodSub s := by
  intro l
  induction l with
  | nil =>
    intro _
    exact ⟨[], rfl, by simp⟩
  | cons a as ih =>
    intro h
    obtain ⟨a', ha', hga⟩ := finalizeSubtitle_good cfg a (h a (List.mem_cons_self _ _))
    obtain ⟨l', hl', hgl⟩ := ih (fun s hs => h s (List.mem_cons_of_mem _ hs))
    refine ⟨a' :: l', ?_, ?_⟩
    · rw [optionMapM, ha', hl']
      rfl
    · intro s hs
      rcases List.mem_cons.mp hs with rfl | hs'
      · exact hga
      · exact hgl s hs'

/-- The pass-3 re-merge succeeds from a good accumulator over good inputs,
and all of its outputs are good. -/
theorem remergeGo_good (cfg : RunCfg) :
    ∀ (rest : List PredictedSubtitle) (last : PredictedSubtitle), GoodSub last →
      (∀ s ∈ rest, GoodSub s) →
      ∃ out, remergeGo cfg last rest = some out ∧ ∀ s ∈ out, GoodSub s := by
  intro rest
  induction rest with
  | nil =>
    intro last hl _
    refine ⟨[last], rfl, ?_⟩
    intro s hs
    rw [List.mem_singleton] at hs
    rw [hs]
    exact hl
  | cons n rest' ih =>
    intro last hl hrest
    by_cases hmt : mergeTest cfg last n = true
    · obtain ⟨m, hm, hgm⟩ := finalizeSubtitle_good cfg (extendSub last n)
        (extendSub_good _ _ hl)
      obtain ⟨out, hout, hgout⟩ := ih m hgm (fun s hs => hrest s (List.mem_cons_of_mem _ hs))
      refine ⟨out, ?_, hgout⟩
      rw [remergeGo, if_pos hmt, hm]
      simpa using hout
    · obtain ⟨out, hout, hgout⟩ :=
        ih n (hrest n (List.mem_cons_self _ _)) (fun s hs => hrest s (List.mem_cons_of_mem _ hs))
      refine ⟨last :: out, ?_, ?_⟩
      · rw [remergeGo, if_neg hmt, hout]
        rfl
      · intro s hs
        rcases List.mem_cons.mp hs with rfl | hs'
        · exact hl
        · exact hgout s hs'

/-! ### C10 — pipeline safety -/

/-- C10: for every run configuration and frame list, the single-zone pipeline
never fails (in particular `finalize_text` is never applied to a subtitle
with no frames: every created subtitle has non-empty text, which forces a
kept frame, and merge steps only add frames), and every emitted subtitle
contains at least one frame with positive confidence and non-empty text —
so `index_start`/`index_end` read genuine frame indices. -/
theorem C10_pipeline_safety (cfg : RunCfg) (pred_frames : List PredictedFrames) :
    ∃ out, process_single_zone cfg pred_frames = some out ∧ ∀ s ∈ out, GoodSub s := by
  by_cases hemp : pred_frames.isEmpty
  · refine ⟨[], ?_, by simp⟩
    unfold process_single_zone
    rw [if_pos hemp]
  · unfold process_single_zone
    rw [if_neg hemp]
    obtain ⟨l', hl', hgl⟩ := optionMapM_finalize_good cfg
      (pass1 cfg (List.insertionSort frame_start_le pred_frames))
      (pass1_good cfg _)
    rw [hl', Option.some_bind]
    cases hc : l'.filter
        (fun s => decide (cfg.min_subtitle_duration_sec ≤ subtitle_duration_sec cfg s)) with
    | nil =>
      exact ⟨[], rfl, by simp⟩
    | cons s rest =>
      have hgf : ∀ x ∈ s :: rest, GoodSub x := by
        intro x hx
        rw [← hc] at hx
        exact hgl x (List.mem_of_mem_filter hx)
      exact remergeGo_good cfg rest s (hgf s (List.mem_cons_self _ _))
        (fun x hx => hgf x (List.mem_cons_of_mem _ hx))

/-! ### C5 — merge idempotence -/

/-- The re-run walk appends every subtitle unchanged when no adjacent pair
passes the combined gap-plus-similarity test. -/
theorem rerunGo_no_merge (cfg : RunCfg) :
    ∀ (rest : List PredictedSubtitle) (last : PredictedSubtitle),
      List.Chain' (fun a b => mergeTest cfg a b = false) (last :: rest) →
      rerunGo cfg last rest = last :: rest := by
  intro rest
  induction rest with
  | nil =>
    intro last _
    rfl
  | cons n rest' ih =>
    intro last h
    rw [List.chain'_cons] at h
    obtain ⟨h1, h2⟩ := h
    rw [rerunGo, if_neg (by simp [h1]), ih n h2]

unseal Rat.add Rat.mul Rat.inv Rat.sub in
/-- C5 counterexample: on the concrete frame sequence `A, U, V, W, W` with
the contract-conforming similarity function `simCE` and threshold 70, the
single-zone pipeline outputs two subtitles (`"A"` and the pass-3-merged
`"W"`, re-finalized from `U`/`V`/`W` frames), but re-running the pass-1
gap-plus-similarity walk over that output merges them into one — the walk is
not idempotent, because the pass-3 merge changed the accumulated subtitle's
finalized text from `"V"` to `"W"`, which is similar to `"A"` while `"V"`
is not. -/
theorem C5_counterexample :
    (process_single_zone cfgCE framesCE).map
        (fun L => ((rerunPass1 cfgCE L).length, L.length)) = some (1, 2) := by
  decide

/-- C5 (amended): re-running the pass-1 merge walk over a subtitle list
returns it unchanged provided every adjacent pair fails the combined
gap-plus-similarity test on the subtitles' finalized texts.  The pipeline
guarantees this failure only for the texts current at each pass-3
comparison; a later pass-3 merge re-finalizes the accumulated subtitle's
text, which can retroactively make an adjacent pair similar, so unconditional
idempotence fails (see the counterexample). -/
theorem C5_amended_idempotence (cfg : RunCfg) (L : List PredictedSubtitle)
    (h : List.Chain' (fun a b => mergeTest cfg a b = false) L) :
    rerunPass1 cfg L = L := by
  cases L with
  | nil => rfl
  | cons s rest =>
    rw [rerunPass1]
    exact rerunGo_no_merge cfg rest s h

unseal Rat.add Rat.mul Rat.inv Rat.sub in
/-- Witness for the amended C5: two adjacent dissimilar subtitles survive the
re-run walk unchanged. -/
theorem C5_amended_idempotence_witness :
    rerunPass1 cfgCE [mkSub1 0 0 "A", mkSub1 1 1 "B"]
      = [mkSub1 0 0 "A", mkSub1 1 1 "B"] :=
  C5_amended_idempotence cfgCE [mkSub1 0 0 "A", mkSub1 1 1 "B"]
    (List.chain'_cons.mpr ⟨by decide, List.chain'_singleton _⟩)

/-! ### C4 — stitching completeness -/

/-- In a start-index-sorted frame list, the head's start index bounds every
element's start index from below. -/
theorem chain_start_le :
    ∀ (l : List PredictedFrames) (g : PredictedFrames),
      List.Chain' (fun a b => a.start_index < b.start_index) (g :: l) →
      ∀ h ∈ g :: l, g.start_index ≤ h.start_index := by
  intro l
  induction l with
  | nil =>
    intro g _ h hh
    rw [List.mem_singleton] at hh
    rw [hh]
  | cons b l' ih =>
    intro g hch h hh
    rw [List.chain'_cons] at hch
    obtain ⟨hgb, hch'⟩ := hch
    rcases List.mem_cons.mp hh with rfl | hh'
    · exact le_refl _
    · exact le_trans (le_of_lt hgb) (ih b hch' h hh')

/-- Master specification of the per-zone stitching pass on a non-empty,
strictly start-sorted frame list whose start indices all precede `e`:
start indices are preserved, consecutive stitched ranges abut exactly
(`end + 1 = next start`), the last `end_index` is `e - 1`, the concatenation
of the covered ranges is exactly `[first start, e)`, and the ranges are
pairwise disjoint. -/
theorem stitchZone_spec :
    ∀ (fs : List PredictedFrames) (f : PredictedFrames) (e : ℕ),
      List.Chain' (fun a b => a.start_index < b.start_index) (f :: fs) →
      (∀ g ∈ f :: fs, g.start_index < e) →
      ((stitchZone e (f :: fs)).map (fun x => x.start_index)
          = (f :: fs).map (fun x => x.start_index)) ∧
      List.Chain' (fun a b => a.end_index + 1 = b.start_index) (stitchZone e (f :: fs)) ∧
      (∃ glast, (stitchZone e (f :: fs)).getLast? = some glast ∧
        glast.end_index = e - 1) ∧
      ((stitchZone e (f :: fs)).map rangeOf).flatten
          = List.range' f.start_index (e - f.start_index) ∧
      (stitchZone e (f :: fs)).Pairwise (fun a b => a.end_index < b.start_index) := by
  intro fs
  induction fs with
  | nil =>
    intro f e _ hbound
    have hfe : f.start_index < e := hbound f (List.mem_singleton_self f)
    refine ⟨rfl, List.chain'_singleton _, ⟨_, rfl, rfl⟩, ?_, List.pairwise_singleton _ _⟩
    show rangeOf { f with end_index := e - 1 } ++ ([] : List (List ℕ)).flatten
        = List.range' f.start_index (e - f.start_index)
    rw [show ([] : List (List ℕ)).flatten = [] from rfl, List.append_nil]
    unfold rangeOf
    show List.range' f.start_index (e - 1 + 1 - f.start_index)
        = List.range' f.start_index (e - f.start_index)
    congr 1
    omega
  | cons g rest ih =>
    intro f e hchain hbound
    have hchain' : List.Chain' (fun a b => a.start_index < b.start_index) (g :: rest) :=
      (List.chain'_cons.mp hchain).2
    have hfg : f.start_index < g.start_index := (List.chain'_cons.mp hchain).1
    have hbound' : ∀ x ∈ g :: rest, x.start_index < e :=
      fun x hx => hbound x (List.mem_cons_of_mem _ hx)
    obtain ⟨m1, m2, m3, m4, m5⟩ := ih g e hchain' hbound'
    have hge : g.start_index < e := hbound' g (List.mem_cons_self _ _)
    have hstitch_eq : stitchZone e (f :: g :: rest)
        = { f with end_index := g.start_index - 1 } :: stitchZone e (g :: rest) := rfl
    have hne : stitchZone e (g :: rest) ≠ [] := by
      intro hnil
      rw [hnil] at m1
      exact absurd m1.symm (by simp)
    obtain ⟨y, t, hyt⟩ : ∃ y t, stitchZone e (g :: rest) = y :: t := by
      cases hs : stitchZone e (g :: rest) with
      | nil => exact absurd hs hne
      | cons y t => exact ⟨y, t, rfl⟩
    have hy_start : y.start_index = g.start_index := by
      rw [hyt] at m1
      simpa using congrArg List.head? m1
    have hstart_ge : ∀ b ∈ stitchZone e (g :: rest), g.start_index ≤ b.start_index := by
      intro b hb
      have hmem : b.start_index ∈ (stitchZone e (g :: rest)).map (fun x => x.start_index) :=
        List.mem_map_of_mem _ hb
      rw [m1] at hmem
      obtain ⟨c, hc, hcb⟩ := List.mem_map.mp hmem
      rw [← hcb]
      exact chain_start_le rest g hchain' c hc
    refine ⟨?_, ?_, ?_, ?_, ?_⟩
    · rw [hstitch_eq]
      simpa using m1
    · rw [hstitch_eq, hyt]
      rw [List.chain'_cons]
      refine ⟨?_, by rw [← hyt]; exact m2⟩
      show g.start_index - 1 + 1 = y.start_index
      rw [hy_start]
      omega
    · obtain ⟨gl, hgl, hge'⟩ := m3
      refine ⟨gl, ?_, hge'⟩
      rw [hstitch_eq, hyt]
      rw [List.getLast?_cons_cons]
      rw [← hyt]
      exact hgl
    · rw [hstitch_eq]
      show rangeOf { f with end_index := g.start_index - 1 }
          ++ ((stitchZone e (g :: rest)).map rangeOf).flatten
          = List.range' f.start_index (e - f.start_index)
      rw [m4]
      unfold rangeOf
      show List.range' f.start_index (g.start_index - 1 + 1 - f.start_index)
          ++ List.range' g.start_index (e - g.start_index)
          = List.range' f.start_index (e - f.start_index)
      have h1 : g.start_index - 1 + 1 - f.start_index = g.start_index - f.start_index := by
        omega
      have h2 : g.start_index = f.start_index + (g.start_index - f.start_index) := by
        omega
      rw [h1]
      have happ := List.range'_append_1 f.start_index
        (g.start_index - f.start_index) (e - g.start_index)
      rw [← h2] at happ
      rw [happ]
      congr 1
      omega
    · rw [hstitch_eq]
      rw [List.pairwise_cons]
      refine ⟨?_, m5⟩
      intro b hb
      show g.start_index - 1 < b.start_index
      have := hstart_ge b hb
      omega

/-- C4: after the end-index stitching pass over a zone's non-empty,
strictly start-sorted frame list that begins at `ocr_start` and whose start
indices all precede `ocr_end`, consecutive frames abut exactly
(`end_index + 1 = next start_index`, hence no gaps), the ranges are pairwise
disjoint, the last `end_index` equals `ocr_end - 1`, and the concatenation of
the covered `[start_index, end_index]` ranges is exactly the interval
`[ocr_start, ocr_end)`. -/
theorem C4_stitching_completeness (f : PredictedFrames) (fs : List PredictedFrames)
    (ocr_start ocr_end : ℕ)
    (hstart : f.start_index = ocr_start)
    (hchain : List.Chain' (fun a b => a.start_index < b.start_index) (f :: fs))
    (hbound : ∀ g ∈ f :: fs, g.start_index < ocr_end) :
    List.Chain' (fun a b => a.end_index + 1 = b.start_index)
      (stitchZone ocr_end (f :: fs)) ∧
    (stitchZone ocr_end (f :: fs)).Pairwise (fun a b => a.end_index < b.start_index) ∧
    (∃ glast, (stitchZone ocr_end (f :: fs)).getLast? = some glast ∧
      glast.end_index = ocr_end - 1) ∧
    ((stitchZone ocr_end (f :: fs)).map rangeOf).flatten
      = List.range' ocr_start (ocr_end - ocr_start) := by
  obtain ⟨_, m2, m3, m4, m5⟩ := stitchZone_spec fs f ocr_end hchain hbound
  refine ⟨m2, m5, m3, ?_⟩
  rw [← hstart]
  exact m4

/-- Witness for C4: three frames starting at 2, 5 and 9 stitched against an
OCR window ending at 12. -/
theorem C4_stitching_completeness_witness :
    List.Chain' (fun a b => a.end_index + 1 = b.start_index)
      (stitchZone 12 [mkF 2 "s" 9, mkF 5 "s" 9, mkF 9 "s" 9]) ∧
    (stitchZone 12 [mkF 2 "s" 9, mkF 5 "s" 9, mkF 9 "s" 9]).Pairwise
      (fun a b => a.end_index < b.start_index) ∧
    (∃ glast, (stitchZone 12 [mkF 2 "s" 9, mkF 5 "s" 9, mkF 9 "s" 9]).getLast?
        = some glast ∧ glast.end_index = 12 - 1) ∧
    ((stitchZone 12 [mkF 2 "s" 9, mkF 5 "s" 9, mkF 9 "s" 9]).map rangeOf).flatten
      = List.range' 2 (12 - 2) :=
  C4_stitching_completeness (mkF 2 "s" 9) [mkF 5 "s" 9, mkF 9 "s" 9] 2 12 rfl
    (List.chain'_cons.mpr ⟨by decide,
      List.chain'_cons.mpr ⟨by decide, List.chain'_singleton _⟩⟩)
    (by
      intro g hg
      rcases List.mem_cons.mp hg with rfl | hg'
      · decide
      · rcases List.mem_cons.mp hg' with rfl | hg''
        · decide
        · rw [List.mem_singleton] at hg''
          rw [hg'']
          decide)

/-! ### C6 — line and word ordering in a built frame -/

/-- The `lines` field of a built frame, as a closed expression. -/
theorem build_lines_eq (idx : ℕ) (pred0 : List PredictedText) (thr : ℚ) (zone : ℕ) :
    (PredictedFrames.build idx pred0 thr zone).lines
      = (if (pred0.filter (fun w => decide (thr ≤ w.confidence))).isEmpty then []
        else buildLines (pred0.filter (fun w => decide (thr ≤ w.confidence)))) := by
  by_cases he : (pred0.filter (fun w => decide (thr ≤ w.confidence))).isEmpty
  · simp only [PredictedFrames.build]
    rw [if_pos he, if_pos he]
  · simp only [PredictedFrames.build]
    rw [if_neg he, if_neg he]

unseal Rat.add Rat.mul Rat.inv Rat.sub in
/-- C6 counterexample: the claim fails as stated, on both counts.  With
detections `wx1` (first vertex x = 5, minimum x = 0) and `wx2` (both 1) on
one line, the built frame's words are ordered `wx2, wx1` — not sorted by
minimum x.  With detections `vy1, vy3, vy2`, the greedy grouping puts `vy1`
and `vy2` on one line (true minimum y = 0) and `vy3` alone (minimum y = 1),
but the built frame orders the `vy3` line first because the sort key is the
SEED word's minimum y (4 for the `vy1` line), so the lines are not sorted by
the lines' minimum y-coordinates. -/
theorem C6_counterexample :
    (¬ ∀ line ∈ (PredictedFrames.build 0 [wx1, wx2] 1 0).lines,
        List.Pairwise (fun w1 w2 : PredictedText =>
          w1.bounding_box.minX ≤ w2.bounding_box.minX) line) ∧
    (¬ List.Pairwise (fun l1 l2 : List PredictedText => lineMinY l1 ≤ lineMinY l2)
        (PredictedFrames.build 0 [vy1, vy3, vy2] 1 0).lines) := by
  constructor
  · decide
  · decide

/-- C6 (amended): in every built frame, the LINES are sorted by the minimum
y-coordinate of each line's seed word (the first detection greedily placed in
that line, i.e. Python's `line[0]` — not by the line's overall minimum y),
and the WORDS within each line are sorted by the x-coordinate of the first
vertex of their bounding quadrilateral (`bounding_box[0][0]` — not by their
minimum x), for any detections and any input order. -/
theorem C6_amended_ordering :
    (∀ words : List PredictedText, List.Sorted line_seed_le (sortedGroups words)) ∧
    (∀ (idx zone : ℕ) (pred0 : List PredictedText) (thr : ℚ),
      ∀ line ∈ (PredictedFrames.build idx pred0 thr zone).lines,
        List.Sorted word_x_le line) := by
  constructor
  · intro words
    exact List.sorted_insertionSort line_seed_le (groupWords words)
  · intro idx zone pred0 thr line hline
    rw [build_lines_eq] at hline
    by_cases he : (pred0.filter (fun w => decide (thr ≤ w.confidence))).isEmpty
    · rw [if_pos he] at hline
      exact absurd hline (List.not_mem_nil _)
    · rw [if_neg he] at hline
      unfold buildLines at hline
      obtain ⟨g, _, rfl⟩ := List.mem_map.mp hline
      exact List.sorted_insertionSort word_x_le _

unseal Rat.add Rat.mul Rat.inv Rat.sub in
/-- Witness for the amended C6: the one line of the `wx1, wx2` frame is
`[wx2, wx1]`, sorted by first-vertex x. -/
theorem C6_amended_ordering_witness :
    List.Sorted word_x_le [wx2, wx1] :=
  C6_amended_ordering.2 0 0 [wx1, wx2] 1 [wx2, wx1] (by decide)

/-! ### C8 — right-to-left visual-to-logical correction -/

/-- Taking while a predicate holds skips over a wholly satisfying prefix. -/
theorem takeWhile_append_all {α : Type} (p : α → Bool) :
    ∀ (l1 l2 : List α), (∀ c ∈ l1, p c = true) →
      (l1 ++ l2).takeWhile p = l1 ++ l2.takeWhile p := by
  intro l1
  induction l1 with
  | nil =>
    intro l2 _
    simp
  | cons a l1' ih =>
    intro l2 h
    have ha : p a = true := h a (List.mem_cons_self _ _)
    rw [List.cons_append, List.takeWhile_cons, if_pos ha,
      ih l2 (fun c hc => h c (List.mem_cons_of_mem _ hc)), List.cons_append]

/-- Dropping while a predicate holds removes a wholly satisfying prefix. -/
theorem dropWhile_append_all {α : Type} (p : α → Bool) :
    ∀ (l1 l2 : List α), (∀ c ∈ l1, p c = true) →
      (l1 ++ l2).dropWhile p = l2.dropWhile p := by
  intro l1
  induction l1 with
  | nil =>
    intro l2 _
    simp
  | cons a l1' ih =>
    intro l2 h
    have ha : p a = true := h a (List.mem_cons_self _ _)
    rw [List.cons_append, List.dropWhile_cons, if_pos ha,
      ih l2 (fun c hc => h c (List.mem_cons_of_mem _ hc))]

/-- The per-token correction on a token of the form
`core ++ trailing punctuation` (core non-empty, wholly Arabic-script and
punctuation-free) reverses the core and keeps the punctuation at the tail. -/
theorem fixArabicWord_core_punct (core punct : List Char)
    (hne : core ≠ [])
    (hcore : ∀ c ∈ core, isArabicChar c = true ∧ isTrailingPunct c = false)
    (hpunct : ∀ c ∈ punct, isTrailingPunct c = true) :
    fixArabicWord (String.mk (core ++ punct)) = String.mk (core.reverse ++ punct) := by
  obtain ⟨c, cs, hrev⟩ : ∃ c cs, core.reverse = c :: cs := by
    cases hr : core.reverse with
    | nil =>
      exact absurd (by simpa using congrArg List.reverse hr) hne
    | cons c cs => exact ⟨c, cs, rfl⟩
  have hc_mem : c ∈ core := by
    rw [← List.mem_reverse, hrev]
    exact List.mem_cons_self _ _
  have hcp : isTrailingPunct c = false := (hcore c hc_mem).2
  have htake : core.reverse.takeWhile isTrailingPunct = [] := by
    rw [hrev, List.takeWhile_cons, if_neg (by simp [hcp])]
  have hdrop : core.reverse.dropWhile isTrailingPunct = core.reverse := by
    rw [hrev, List.dropWhile_cons, if_neg (by simp [hcp])]
  have hpunct_rev : ∀ c ∈ punct.reverse, isTrailingPunct c = true :=
    fun x hx => hpunct x (List.mem_reverse.mp hx)
  unfold fixArabicWord
  have htl : (String.mk (core ++ punct)).toList = core ++ punct := rfl
  rw [htl, List.reverse_append]
  show String.mk
      (List.dropWhile isTrailingPunct (punct.reverse ++ core.reverse)
        ++ (List.takeWhile isTrailingPunct (punct.reverse ++ core.reverse)).reverse)
    = String.mk (core.reverse ++ punct)
  rw [dropWhile_append_all _ _ _ hpunct_rev, hdrop]
  rw [takeWhile_append_all _ _ _ hpunct_rev, htake]
  rw [List.append_nil, List.reverse_reverse]

/-- A single right-to-left token is flushed alone after correction. -/
theorem goVisual_single_arabic (w : String) (hw : isArabicWord w = true) :
    goVisual [] [w] = [fixArabicWord w] := by
  rw [goVisual, if_pos hw, goVisual]
  simp

/-- Folding the spec-side run decomposition one step back into itself. -/
theorem specReorder_take_drop (ws : List String) :
    ((ws.takeWhile isArabicWord).map fixArabicWord).reverse ++
      specReorder (ws.dropWhile isArabicWord) = specReorder ws := by
  cases ws with
  | nil => simp [specReorder]
  | cons w ws' =>
    by_cases hw : isArabicWord w
    · conv_rhs => rw [specReorder]
      rw [if_pos hw, List.takeWhile_cons, if_pos hw, List.dropWhile_cons, if_pos hw]
    · rw [List.takeWhile_cons, if_neg (by simp [hw]), List.dropWhile_cons,
        if_neg (by simp [hw])]
      simp

/-- The token-level loop computes the spec-side run reordering, for every
buffer state. -/
theorem goVisual_eq_aux :
    ∀ (ws : List String) (buf : List String),
      goVisual buf ws
        = (buf ++ (ws.takeWhile isArabicWord).map fixArabicWord).reverse
          ++ specReorder (ws.dropWhile isArabicWord) := by
  intro ws
  induction ws with
  | nil =>
    intro buf
    simp [goVisual, specReorder]
  | cons w ws' ih =>
    intro buf
    by_cases hw : isArabicWord w
    · rw [goVisual, if_pos hw, ih]
      rw [List.takeWhile_cons, if_pos hw, List.dropWhile_cons, if_pos hw]
      simp
    · have h0 : goVisual [] ws' = specReorder ws' := by
        rw [ih []]
        simpa using specReorder_take_drop ws'
      rw [goVisual, if_neg (by simp [hw]), h0]
      rw [List.takeWhile_cons, if_neg (by simp [hw]), List.dropWhile_cons,
        if_neg (by simp [hw])]
      conv_rhs => rw [specReorder]
      rw [if_neg (by simp [hw])]
      simp

/-- C8: the right-to-left correction maps a single RTL token
`core ++ trailing punctuation` to the reversed core followed by the same
punctuation, and on any token sequence the loop equals the spec-side
reordering: left-to-right tokens keep their relative order while each
maximal run of consecutive RTL tokens is reversed in token order (with the
per-token correction applied). -/
theorem C8_rtl_correction :
    (∀ (core punct : List Char), core ≠ [] →
      (∀ c ∈ core, isArabicChar c = true ∧ isTrailingPunct c = false) →
      (∀ c ∈ punct, isTrailingPunct c = true) →
      goVisual [] [String.mk (core ++ punct)] = [String.mk (core.reverse ++ punct)]) ∧
    (∀ ws : List String, goVisual [] ws = specReorder ws) := by
  constructor
  · intro core punct hne hcore hpunct
    have hw : isArabicWord (String.mk (core ++ punct)) = true := by
      obtain ⟨c, cs, rfl⟩ : ∃ c cs, core = c :: cs := by
        cases core with
        | nil => exact absurd rfl hne
        | cons c cs => exact ⟨c, cs, rfl⟩
      have : isArabicChar c = true := (hcore c (List.mem_cons_self _ _)).1
      unfold isArabicWord
      rw [List.any_eq_true]
      exact ⟨c, by simp, this⟩
    rw [goVisual_single_arabic _ hw, fixArabicWord_core_punct core punct hne hcore hpunct]
  · intro ws
    rw [goVisual_eq_aux ws []]
    simpa using specReorder_take_drop ws

/-- Witness for C8: the token `"با!"` (core `ب ا`, trailing `!`) becomes
`"اب!"` — reversed core, punctuation kept at the tail. -/
theorem C8_rtl_correction_witness :
    goVisual [] [String.mk (['ب', 'ا'] ++ ['!'])]
      = [String.mk (['ب', 'ا'].reverse ++ ['!'])] :=
  C8_rtl_correction.1 ['ب', 'ا'] ['!'] (by decide) (by decide) (by decide)
